import Mathlib

/-!
Shallow embedding of the parser in `src/parser.rs` of tesujimath/beancount-parser.

Inputs are `List Char` (the Rust parsers work on `&str`).  A nom parser of
type `IResult<&str, T, ErrorTree<&str>>` is embedded as
`List Char → Option (List Char × T)` when only success/failure is relevant,
and as `List Char → PResult T` for `date`, whose error payload and anchor
matter.  A nom error location (a suffix `&str` of the input) is embedded as
the corresponding `List Char` suffix.

The domain value types (`AccountType`, `SubAccount`, `Account`, `Flag`,
`FlagLetter`) and their validators live outside `src/`; they are modelled
from the spec, as marked on each definition.  `NaiveDate` and
`from_ymd_opt` model the external chrono library.
-/

/-- Data model account type.  Modelled from the spec: one of
Assets, Liabilities, Equity, Income, Expenses. -/
inductive AccountType where
  | assets
  | liabilities
  | equity
  | income
  | expenses
deriving DecidableEq

/-- Rust ASCII digit test, characters `0` through `9` (code points 48-57). -/
def is_ascii_digit (c : Char) : Bool := 48 ≤ c.toNat && c.toNat ≤ 57

/-- Modelled from the spec: a subaccount component must start with an
uppercase letter or a digit.  This embeds `SubAccount::is_valid_initial`,
which lives outside `src/`. -/
def is_valid_initial (c : Char) : Bool :=
  (65 ≤ c.toNat && c.toNat ≤ 90) || is_ascii_digit c

/-- Modelled from the spec: subsequent subaccount characters come from a
restricted alphanumeric / `-` / `_` class.  This embeds
`SubAccount::is_valid_subsequent`, which lives outside `src/`. -/
def is_valid_subsequent (c : Char) : Bool :=
  is_valid_initial c || (97 ≤ c.toNat && c.toNat ≤ 122) || c = '-' || c = '_'

/-- Data model subaccount component. -/
structure SubAccount where
  chars : List Char
deriving DecidableEq

/-- Modelled from the spec: the `FromStr` conversion for `SubAccount`
(applied by `sub_account` through `map_res`) validates the component
character classes: a valid initial character followed by valid subsequent
characters. -/
def SubAccount.parse (s : List Char) : Option SubAccount :=
  match s with
  | [] => none
  | c :: cs =>
    if is_valid_initial c && cs.all is_valid_subsequent then some ⟨s⟩ else none

/-- Data model account: an account type plus its subaccount components. -/
structure Account where
  account_type : AccountType
  sub_accounts : List SubAccount
deriving DecidableEq

/-- Modelled from the spec: `Account::new` packs type plus components;
every account's subaccount sequence is non-empty. -/
def Account.new (t : AccountType) (subs : List SubAccount) : Option Account :=
  match subs with
  | [] => none
  | _ :: _ => some ⟨t, subs⟩

/-- Data model flag (named `Flag` in the source; renamed here because
Mathlib already declares a `Flag`).  Modelled from the spec: variant over
Asterisk, Hash, Exclamation, Ampersand, Question, Percent, Letter. -/
inductive TxnFlag where
  | asterisk
  | hash
  | exclamation
  | ampersand
  | question
  | percent
  | letter (c : Char)
deriving DecidableEq

/-- Modelled from the spec: `FlagLetter::try_from` accepts a restricted
letter set (uppercase ASCII letters, code points 65-90). -/
def FlagLetter.valid (c : Char) : Bool := 65 ≤ c.toNat && c.toNat ≤ 90

/-- Embeds nom_supreme `tag` (imported as `sym` in the source): match a
literal prefix of the input and return the remainder. -/
def sym : List Char → List Char → Option (List Char)
  | [], i => some i
  | _ :: _, [] => none
  | c :: cs, d :: ds => if c = d then sym cs ds else none

def assetsKw : List Char := "Assets".toList

def liabilitiesKw : List Char := "Liabilities".toList

def equityKw : List Char := "Equity".toList

def incomeKw : List Char := "Income".toList

def expensesKw : List Char := "Expenses".toList

/-- The keyword spelling of each account type. -/
def accountTypeKeyword : AccountType → List Char
  | .assets => assetsKw
  | .liabilities => liabilitiesKw
  | .equity => equityKw
  | .income => incomeKw
  | .expenses => expensesKw

/-- Embeds `account_type` from `parser.rs`: `alt` over the five
case-sensitive keywords, in source order. -/
def account_type (i : List Char) : Option (List Char × AccountType) :=
  match sym assetsKw i with
  | some r => some (r, AccountType.assets)
  | none =>
  match sym liabilitiesKw i with
  | some r => some (r, AccountType.liabilities)
  | none =>
  match sym equityKw i with
  | some r => some (r, AccountType.equity)
  | none =>
  match sym incomeKw i with
  | some r => some (r, AccountType.income)
  | none =>
  match sym expensesKw i with
  | some r => some (r, AccountType.expenses)
  | none => none

/-- Embeds `flag` from `parser.rs`.  Branches in source order; the source
maps the input `&` to `Flag::Exclamation` (parser.rs line 75).  The final
branch is `tuple((sym("'"), anychar))` passed through
`FlagLetter::try_from` by `map_res`. -/
def flag (i : List Char) : Option (List Char × TxnFlag) :=
  match sym ['*'] i with
  | some r => some (r, TxnFlag.asterisk)
  | none =>
  match sym ['#'] i with
  | some r => some (r, TxnFlag.hash)
  | none =>
  match sym ['!'] i with
  | some r => some (r, TxnFlag.exclamation)
  | none =>
  match sym ['&'] i with
  | some r => some (r, TxnFlag.exclamation)
  | none =>
  match sym ['?'] i with
  | some r => some (r, TxnFlag.question)
  | none =>
  match sym ['%'] i with
  | some r => some (r, TxnFlag.percent)
  | none =>
  match sym ['\''] i with
  | none => none
  | some r =>
    match r with
    | [] => none
    | c :: rest => if FlagLetter.valid c then some (rest, TxnFlag.letter c) else none

def txnKw : List Char := "txn".toList

/-- Embeds `txn` from `parser.rs`: the bare `txn` keyword (yielding the
asterisk flag) or any flag. -/
def txn (i : List Char) : Option (List Char × TxnFlag) :=
  match sym txnKw i with
  | some r => some (r, TxnFlag.asterisk)
  | none => flag i

/-- Embeds `sub_account` from `parser.rs`:
`recognize(tuple((satisfy(is_valid_initial), many0_count(satisfy(is_valid_subsequent)))))`
passed through the `SubAccount` `FromStr` by `map_res`.  The recognized
slice is the initial character plus the maximal run of valid subsequent
characters. -/
def sub_account (i : List Char) : Option (List Char × SubAccount) :=
  match i with
  | [] => none
  | c :: cs =>
    if is_valid_initial c then
      let run := cs.takeWhile is_valid_subsequent
      match SubAccount.parse (c :: run) with
      | some sa => some (cs.drop run.length, sa)
      | none => none
    else none

/-- One `tuple((sym(":"), sub_account))` step inside `account`'s `many0`
(the colon itself is discarded by the mapping in `account`). -/
def colon_sub (i : List Char) : Option (List Char × SubAccount) :=
  match sym [':'] i with
  | none => none
  | some r => sub_account r

/-- Embeds nom `many0(tuple((sym(":"), sub_account))))` as a fuelled loop:
each successful step consumes at least the colon, so `i.length + 1` steps
always suffice; the non-consuming-success guard mirrors nom's `Many0`
infinite-loop error. -/
def many0_colon_sub_go : Nat → List Char → Option (List Char × List SubAccount)
  | 0, _ => none
  | fuel + 1, i =>
    match colon_sub i with
    | none => some (i, [])
    | some (i', s) =>
      if i'.length < i.length then
        match many0_colon_sub_go fuel i' with
        | none => none
        | some (r, ss) => some (r, s :: ss)
      else none

def many0_colon_sub (i : List Char) : Option (List Char × List SubAccount) :=
  many0_colon_sub_go (i.length + 1) i

/-- Embeds `account` from `parser.rs`: account type, colon, a first
subaccount, then `many0` colon-subaccount pairs, finally `Account::new`
through `map_res`. -/
def account (i : List Char) : Option (List Char × Account) :=
  match account_type i with
  | none => none
  | some (i1, acc_type) =>
    match sym [':'] i1 with
    | none => none
    | some i2 =>
      match sub_account i2 with
      | none => none
      | some (i3, sub) =>
        match many0_colon_sub i3 with
        | none => none
        | some (i4, subs) =>
          match Account.new acc_type (sub :: subs) with
          | none => none
          | some a => some (i4, a)

/-- Models chrono `NaiveDate` (year is an `i32`, month and day are `u32`). -/
structure NaiveDate where
  year : Int
  month : Nat
  day : Nat
deriving DecidableEq

/-- Models the chrono leap-year rule.  The parser only produces
non-negative years (digit groups), for which Rust `%` agrees with `Int.emod`. -/
def isLeapYear (y : Int) : Bool := y % 4 == 0 && (y % 100 != 0 || y % 400 == 0)

/-- Days in a month of the proleptic Gregorian calendar. -/
def daysInMonth (y : Int) (m : Nat) : Nat :=
  if m = 2 then (if isLeapYear y then 29 else 28)
  else if m = 4 ∨ m = 6 ∨ m = 9 ∨ m = 11 then 30
  else 31

/-- Models chrono `NaiveDate::from_ymd_opt`: requires a calendar-valid
month/day and a year inside chrono's representable range
(`MIN_YEAR = -262144`, `MAX_YEAR = 262143`). -/
def NaiveDate.from_ymd_opt (y : Int) (m d : Nat) : Option NaiveDate :=
  if y < -262144 ∨ 262143 < y then none
  else if 1 ≤ m ∧ m ≤ 12 ∧ 1 ≤ d ∧ d ≤ daysInMonth y m then some ⟨y, m, d⟩
  else none

/-- Embeds `ParseErrorReason` from `parser.rs`. -/
inductive ParseErrorReason where
  | dateMissingCentury
  | dateOutOfRange
deriving DecidableEq

/-- A nom error as `date` can produce it: `custom` embeds
`ParseError::nom_error(location, reason)`; `generic` embeds every other
nom error (tag / one_of / take_while1 / map_res failures), keeping only
its location. -/
inductive NomErr where
  | custom (location : List Char) (reason : ParseErrorReason)
  | generic (location : List Char)
deriving DecidableEq

/-- A nom `IResult` whose error payload matters. -/
inductive PResult (α : Type) where
  | ok (rest : List Char) (value : α)
  | error (e : NomErr)
deriving DecidableEq

/-- Embeds nom `take_while1(p)`: the maximal non-empty prefix whose
characters satisfy `p`, or failure if it is empty. -/
def take_while1 (p : Char → Bool) (i : List Char) : Option (List Char × List Char) :=
  let g := i.takeWhile p
  if g.isEmpty then none else some (i.drop g.length, g)

/-- Numeric value of an ASCII digit group, as Rust integer `parse`
computes it (most significant digit first). -/
def digitsToNat (ds : List Char) : Nat :=
  ds.foldl (fun a c => a * 10 + (c.toNat - 48)) 0

/-- Rust `str::parse::<i32>` on an all-digit group (no sign possible):
fails above `i32::MAX = 2147483647`. -/
def parseI32 (ds : List Char) : Option Int :=
  if digitsToNat ds ≤ 2147483647 then some (Int.ofNat (digitsToNat ds)) else none

/-- Rust `str::parse::<u32>` on an all-digit group: fails above
`u32::MAX = 4294967295`. -/
def parseU32 (ds : List Char) : Option Nat :=
  if digitsToNat ds ≤ 4294967295 then some (digitsToNat ds) else none

/-- Embeds `date_sep` from `parser.rs`: `one_of` over the two separator
characters, dash and forward slash. -/
def date_sep (i : List Char) : Option (List Char) :=
  match i with
  | [] => none
  | c :: cs => if c = '-' || c = '/' then some cs else none

/-- Embeds `date` from `parser.rs`, line by line: year digit group through
`parse::<i32>` (with its length), the century check, separator, month
group through `parse::<u32>`, separator, day group through `parse::<u32>`,
then `NaiveDate::from_ymd_opt`.  Custom errors are anchored at `i0`, the
start of the literal, exactly as `ParseError::nom_error(i0, ..)` does;
generic errors keep the location nom gives them (the input position of
the failing sub-parser, which for `map_res` is the start of its group). -/
def date (i0 : List Char) : PResult NaiveDate :=
  match take_while1 is_ascii_digit i0 with
  | none => .error (.generic i0)
  | some (i1, ys) =>
    match parseI32 ys with
    | none => .error (.generic i0)
    | some year =>
      if ys.length < 4 then .error (.custom i0 .dateMissingCentury)
      else
        match date_sep i1 with
        | none => .error (.generic i1)
        | some i2 =>
          match take_while1 is_ascii_digit i2 with
          | none => .error (.generic i2)
          | some (i3, ms) =>
            match parseU32 ms with
            | none => .error (.generic i2)
            | some month =>
              match date_sep i3 with
              | none => .error (.generic i3)
              | some i4 =>
                match take_while1 is_ascii_digit i4 with
                | none => .error (.generic i4)
                | some (i5, ds) =>
                  match parseU32 ds with
                  | none => .error (.generic i4)
                  | some day =>
                    match NaiveDate.from_ymd_opt year month day with
                    | some d => .ok i5 d
                    | none => .error (.custom i0 .dateOutOfRange)

/-- The escape transforms of `string`'s `escaped_transform`:
backslash, double quote, `n`, `t`. -/
def escape_char : Char → Option Char
  | '\\' => some '\\'
  | '"' => some '"'
  | 'n' => some '\n'
  | 't' => some '\t'
  | _ => none

/-- Embeds the loop of nom `escaped_transform(take_while1(normal), '\\',
alt(...))` as specialized in `string_content`, one character at a time
(the maximal `take_while1` chunk equals repeated single-character steps).
The first argument records whether the loop is still at index 0, where
nom behaves differently: plain characters (neither backslash nor quote)
pass through; a backslash must be followed by a known escape character,
which is transformed (error on an unknown escape or a dangling backslash,
as in nom); a double quote — the one character on which `take_while1`
fails without being the control character — is an `EscapedTransform`
error at index 0 (nom rejects empty content on non-empty input) and
otherwise stops the loop, returning the remainder; end of input stops the
loop successfully. -/
def string_content_loop : Bool → List Char → Option (List Char × List Char)
  | _, [] => some ([], [])
  | atStart, c :: cs =>
    if c = '\\' then
      match cs with
      | [] => none
      | e :: cs' =>
        match escape_char e with
        | none => none
        | some t =>
          match string_content_loop false cs' with
          | none => none
          | some (r, out) => some (r, t :: out)
    else if c = '"' then
      if atStart then none else some (c :: cs, [])
    else
      match string_content_loop false cs with
      | none => none
      | some (r, out) => some (r, c :: out)

/-- Embeds nom `escaped_transform` as used by `string_content` in
`parser.rs`: the loop starting at index 0. -/
def string_content (i : List Char) : Option (List Char × List Char) :=
  string_content_loop true i

/-- Embeds `string` from `parser.rs`:
`delimited(sym("\""), string_content, sym("\""))`. -/
def string (i : List Char) : Option (List Char × List Char) :=
  match sym ['"'] i with
  | none => none
  | some i1 =>
    match string_content i1 with
    | none => none
    | some (i2, content) =>
      match sym ['"'] i2 with
      | none => none
      | some i3 => some (i3, content)

/-- Specification-side description of quoted-string content: a plain
character or an escape pair. -/
inductive StrItem where
  | raw (c : Char)
  | esc (e : Char)
deriving DecidableEq

/-- Well-formed item: a plain character is neither backslash nor quote; an
escape character is one of the four supported ones. -/
def wfItem : StrItem → Bool
  | .raw c => !(c = '\\' || c = '"')
  | .esc e => (escape_char e).isSome

/-- Source text of one item. -/
def renderItem : StrItem → List Char
  | .raw c => [c]
  | .esc e => ['\\', e]

/-- Source text of a list of items. -/
def render : List StrItem → List Char
  | [] => []
  | it :: its => renderItem it ++ render its

/-- Decoded character of one item (the escape replacement). -/
def decodeItem : StrItem → Char
  | .raw c => c
  | .esc e => (escape_char e).getD ' '

/-- Decoded content of a list of items. -/
def decode (its : List StrItem) : List Char := its.map decodeItem

/-- Colon-prefixed concatenation of subaccount components: the text of an
account literal after the account-type keyword. -/
def colonsPre : List (List Char) → List Char
  | [] => []
  | s :: rest => ':' :: (s ++ colonsPre rest)

/-- A valid subaccount component string: exactly the check performed by
`SubAccount.parse`. -/
def validSubStr (s : List Char) : Bool :=
  match s with
  | [] => false
  | c :: cs => is_valid_initial c && cs.all is_valid_subsequent

theorem sym_append (s r : List Char) : sym s (s ++ r) = some r := by
  induction s with
  | nil => rfl
  | cons c cs ih => simp [sym, ih]

theorem sym_eq_some {s i r : List Char} (h : sym s i = some r) : i = s ++ r := by
  induction s generalizing i with
  | nil =>
    simp only [sym, Option.some.injEq] at h
    simp [← h]
  | cons c cs ih =>
    cases i with
    | nil => simp [sym] at h
    | cons d ds =>
      simp only [sym] at h
      split at h
      · next hc =>
        subst hc
        simp [ih h]
      · simp at h

theorem takeWhile_append_stop (p : Char → Bool) (xs rest : List Char)
    (hall : xs.all p = true)
    (hrest : rest = [] ∨ ∃ c t, rest = c :: t ∧ p c = false) :
    (xs ++ rest).takeWhile p = xs := by
  induction xs with
  | nil =>
    rcases hrest with h | ⟨c, t, hct, hc⟩
    · simp [h]
    · simp [hct, List.takeWhile_cons, hc]
  | cons x xs ih =>
    simp only [List.all_cons, Bool.and_eq_true] at hall
    simp [List.takeWhile_cons, hall.1, ih hall.2]

theorem drop_length_append (xs rest : List Char) : (xs ++ rest).drop xs.length = rest := by
  induction xs with
  | nil => rfl
  | cons x xs ih => simp [ih]

theorem take_while1_exact (p : Char → Bool) (xs rest : List Char)
    (hne : xs ≠ []) (hall : xs.all p = true)
    (hrest : rest = [] ∨ ∃ c t, rest = c :: t ∧ p c = false) :
    take_while1 p (xs ++ rest) = some (rest, xs) := by
  cases xs with
  | nil => exact absurd rfl hne
  | cons x xs =>
    simp only [take_while1, takeWhile_append_stop p (x :: xs) rest hall hrest,
      drop_length_append, List.isEmpty_cons]
    simp

theorem digit_char_le {c : Char} (h : is_ascii_digit c = true) : c.toNat - 48 ≤ 9 := by
  simp only [is_ascii_digit, Bool.and_eq_true, decide_eq_true_eq] at h
  omega

theorem digitsToNat_aux_lt (xs : List Char) :
    ∀ a : Nat, xs.all is_ascii_digit = true →
      xs.foldl (fun a c => a * 10 + (c.toNat - 48)) a < (a + 1) * 10 ^ xs.length := by
  induction xs with
  | nil => intro a _; simp
  | cons x xs ih =>
    intro a hall
    simp only [List.all_cons, Bool.and_eq_true] at hall
    have hx := digit_char_le hall.1
    have h1 := ih (a * 10 + (x.toNat - 48)) hall.2
    have h2 : (a * 10 + (x.toNat - 48) + 1) * 10 ^ xs.length ≤ (a + 1) * 10 ^ (x :: xs).length := by
      simp only [List.length_cons, pow_succ]
      calc (a * 10 + (x.toNat - 48) + 1) * 10 ^ xs.length
          ≤ ((a + 1) * 10) * 10 ^ xs.length := by
            apply Nat.mul_le_mul_right
            omega
        _ = (a + 1) * (10 ^ xs.length * 10) := by ring
    calc (x :: xs).foldl (fun a c => a * 10 + (c.toNat - 48)) a
        = xs.foldl (fun a c => a * 10 + (c.toNat - 48)) (a * 10 + (x.toNat - 48)) := rfl
      _ < (a * 10 + (x.toNat - 48) + 1) * 10 ^ xs.length := h1
      _ ≤ (a + 1) * 10 ^ (x :: xs).length := h2

theorem digitsToNat_lt (xs : List Char) (hall : xs.all is_ascii_digit = true) :
    digitsToNat xs < 10 ^ xs.length := by
  have := digitsToNat_aux_lt xs 0 hall
  simpa [digitsToNat] using this

theorem daysInMonth_le (y : Int) (m : Nat) : daysInMonth y m ≤ 31 := by
  unfold daysInMonth
  split
  · split <;> omega
  · split <;> omega

theorem from_ymd_opt_some {y : Int} {m d : Nat} {dt : NaiveDate}
    (h : NaiveDate.from_ymd_opt y m d = some dt) :
    dt = ⟨y, m, d⟩ ∧ ¬(y < -262144 ∨ 262143 < y) ∧
      1 ≤ m ∧ m ≤ 12 ∧ 1 ≤ d ∧ d ≤ daysInMonth y m := by
  unfold NaiveDate.from_ymd_opt at h
  split at h
  · simp at h
  · next hy =>
    split at h
    · next hc =>
      cases h
      exact ⟨rfl, hy, hc.1, hc.2.1, hc.2.2.1, hc.2.2.2⟩
    · simp at h

theorem from_ymd_fits {n m d : Nat} {dt : NaiveDate}
    (hv : NaiveDate.from_ymd_opt (Int.ofNat n) m d = some dt) :
    n ≤ 2147483647 ∧ m ≤ 4294967295 ∧ d ≤ 4294967295 ∧
      dt = ⟨Int.ofNat n, m, d⟩ := by
  obtain ⟨hdt, hy, h1, h2, h3, h4⟩ := from_ymd_opt_some hv
  have hd31 : d ≤ 31 := le_trans h4 (daysInMonth_le _ _)
  have hn : ¬(262143 < (Int.ofNat n)) := fun hlt => hy (Or.inr hlt)
  have hn' : n ≤ 262143 := by
    simp only [Int.ofNat_eq_natCast] at hn
    omega
  exact ⟨by omega, by omega, by omega, hdt⟩

theorem sep_not_digit {s : Char} (hs : s = '-' ∨ s = '/') : is_ascii_digit s = false := by
  rcases hs with h | h <;> subst h <;> decide

theorem date_sep_cons {s : Char} (hs : s = '-' ∨ s = '/') (x : List Char) :
    date_sep (s :: x) = some x := by
  rcases hs with h | h <;> subst h <;> rfl

theorem date_run (ys ms ds : List Char) (s1 s2 : Char)
    (hy : ys ≠ []) (hyd : ys.all is_ascii_digit = true) (hylen : 4 ≤ ys.length)
    (hyfit : digitsToNat ys ≤ 2147483647)
    (hm : ms ≠ []) (hmd : ms.all is_ascii_digit = true)
    (hmfit : digitsToNat ms ≤ 4294967295)
    (hd : ds ≠ []) (hdd : ds.all is_ascii_digit = true)
    (hdfit : digitsToNat ds ≤ 4294967295)
    (hs1 : s1 = '-' ∨ s1 = '/') (hs2 : s2 = '-' ∨ s2 = '/') :
    date (ys ++ s1 :: (ms ++ s2 :: ds)) =
      match NaiveDate.from_ymd_opt (Int.ofNat (digitsToNat ys)) (digitsToNat ms) (digitsToNat ds) with
      | some d => PResult.ok [] d
      | none => PResult.error (NomErr.custom (ys ++ s1 :: (ms ++ s2 :: ds))
          ParseErrorReason.dateOutOfRange) := by
  have e1 : take_while1 is_ascii_digit (ys ++ s1 :: (ms ++ s2 :: ds)) =
      some (s1 :: (ms ++ s2 :: ds), ys) :=
    take_while1_exact _ ys _ hy hyd (Or.inr ⟨s1, _, rfl, sep_not_digit hs1⟩)
  have e2 : parseI32 ys = some (Int.ofNat (digitsToNat ys)) := by
    simp [parseI32, hyfit]
  have e3 : ¬(ys.length < 4) := Nat.not_lt.mpr hylen
  have e4 : date_sep (s1 :: (ms ++ s2 :: ds)) = some (ms ++ s2 :: ds) := date_sep_cons hs1 _
  have e5 : take_while1 is_ascii_digit (ms ++ s2 :: ds) = some (s2 :: ds, ms) :=
    take_while1_exact _ ms _ hm hmd (Or.inr ⟨s2, _, rfl, sep_not_digit hs2⟩)
  have e6 : parseU32 ms = some (digitsToNat ms) := by
    simp [parseU32, hmfit]
  have e7 : date_sep (s2 :: ds) = some ds := date_sep_cons hs2 _
  have e8 : take_while1 is_ascii_digit ds = some ([], ds) := by
    have h := take_while1_exact is_ascii_digit ds [] hd hdd (Or.inl rfl)
    simpa using h
  have e9 : parseU32 ds = some (digitsToNat ds) := by
    simp [parseU32, hdfit]
  cases hf : NaiveDate.from_ymd_opt (Int.ofNat (digitsToNat ys)) (digitsToNat ms) (digitsToNat ds) with
  | some d => simp only [date, e1, e2, if_neg e3, e4, e5, e6, e7, e8, e9, hf]
  | none => simp only [date, e1, e2, if_neg e3, e4, e5, e6, e7, e8, e9, hf]

/-- C2: for every date literal of the form YYYY-MM-DD or YYYY/MM/DD whose
year group has at least 4 digits and whose (year, month, day) triple is a
calendar-valid date (accepted by chrono `from_ymd_opt`, the code's calendar
authority), the date parser succeeds, consuming the whole literal, and
returns a date whose year, month and day are exactly the numeric values of
the three digit groups. -/
theorem date_valid_literal_exact (ys ms ds : List Char) (sep : Char)
    (hy : ys ≠ []) (hyd : ys.all is_ascii_digit = true) (hylen : 4 ≤ ys.length)
    (hm : ms ≠ []) (hmd : ms.all is_ascii_digit = true)
    (hd : ds ≠ []) (hdd : ds.all is_ascii_digit = true)
    (hsep : sep = '-' ∨ sep = '/')
    (hv : NaiveDate.from_ymd_opt (Int.ofNat (digitsToNat ys)) (digitsToNat ms)
        (digitsToNat ds) = some ⟨Int.ofNat (digitsToNat ys), digitsToNat ms, digitsToNat ds⟩) :
    date (ys ++ sep :: (ms ++ sep :: ds)) =
      PResult.ok [] ⟨Int.ofNat (digitsToNat ys), digitsToNat ms, digitsToNat ds⟩ := by
  obtain ⟨hyfit, hmfit, hdfit, -⟩ := from_ymd_fits hv
  rw [date_run ys ms ds sep sep hy hyd hylen hyfit hm hmd hmfit hd hdd hdfit hsep hsep, hv]

theorem date_valid_literal_exact_witness :
    date ((['2', '0', '2', '3'] : List Char) ++ '-' :: (['0', '1'] ++ '-' :: ['1', '5'])) =
      PResult.ok [] ⟨2023, 1, 15⟩ :=
  date_valid_literal_exact ['2', '0', '2', '3'] ['0', '1'] ['1', '5'] '-'
    (by decide) (by decide) (by decide) (by decide) (by decide) (by decide) (by decide)
    (Or.inl rfl) (by decide)

/-- C3: for every date literal whose leading year digit group has fewer
than 4 digits (followed by a non-digit or end of input), the date parser
fails with the missing-century diagnostic, and the error is anchored at
the start of the literal (the whole input suffix `ys ++ rest`). -/
theorem date_missing_century_short_year (ys rest : List Char)
    (hy : ys ≠ []) (hyd : ys.all is_ascii_digit = true) (hylen : ys.length < 4)
    (hrest : rest = [] ∨ ∃ c t, rest = c :: t ∧ is_ascii_digit c = false) :
    date (ys ++ rest) =
      PResult.error (NomErr.custom (ys ++ rest) ParseErrorReason.dateMissingCentury) := by
  have e1 : take_while1 is_ascii_digit (ys ++ rest) = some (rest, ys) :=
    take_while1_exact _ ys rest hy hyd hrest
  have hfit : digitsToNat ys ≤ 2147483647 := by
    have h1 := digitsToNat_lt ys hyd
    have h2 : 10 ^ ys.length ≤ 10 ^ 3 := Nat.pow_le_pow_right (by omega) (by omega)
    omega
  have e2 : parseI32 ys = some (Int.ofNat (digitsToNat ys)) := by
    simp [parseI32, hfit]
  simp only [date, e1, e2, if_pos hylen]

theorem date_missing_century_short_year_witness :
    date ((['2', '3'] : List Char) ++ ['-', '0', '1', '-', '1', '5']) =
      PResult.error (NomErr.custom (['2', '3'] ++ ['-', '0', '1', '-', '1', '5'])
        ParseErrorReason.dateMissingCentury) :=
  date_missing_century_short_year ['2', '3'] ['-', '0', '1', '-', '1', '5']
    (by decide) (by decide) (by decide) (Or.inr ⟨'-', ['0', '1', '-', '1', '5'], rfl, by decide⟩)

/-- C4 counterexample: the claim as stated is false.  The date literal
`2023-4294967296-01` has a 4-digit year and its digit-group triple
(2023, 4294967296, 1) is not calendar-valid, yet the parser does not
produce the out-of-range-date diagnostic anchored at the literal's start:
the month group overflows `u32`, so `map_res(parse::<u32>)` fails first
and the parser returns a generic nom error anchored at the month group. -/
theorem date_out_of_range_counterexample :
    date (("2023-4294967296-01").toList) =
        PResult.error (NomErr.generic (("4294967296-01").toList))
      ∧ date (("2023-4294967296-01").toList) ≠
        PResult.error (NomErr.custom (("2023-4294967296-01").toList)
          ParseErrorReason.dateOutOfRange) := by
  decide

/-- C4 amended: for every date literal with a 4-or-more-digit year whose
digit-group values fit the machine integers the parser uses (year in
`i32`, month and day in `u32`) and whose triple is not calendar-valid
(rejected by chrono `from_ymd_opt`), the date parser fails with the
out-of-range-date diagnostic anchored at the start of the literal, and
produces no date value. -/
theorem date_out_of_range_amended (ys ms ds : List Char) (s1 s2 : Char)
    (hy : ys ≠ []) (hyd : ys.all is_ascii_digit = true) (hylen : 4 ≤ ys.length)
    (hyfit : digitsToNat ys ≤ 2147483647)
    (hm : ms ≠ []) (hmd : ms.all is_ascii_digit = true)
    (hmfit : digitsToNat ms ≤ 4294967295)
    (hd : ds ≠ []) (hdd : ds.all is_ascii_digit = true)
    (hdfit : digitsToNat ds ≤ 4294967295)
    (hs1 : s1 = '-' ∨ s1 = '/') (hs2 : s2 = '-' ∨ s2 = '/')
    (hv : NaiveDate.from_ymd_opt (Int.ofNat (digitsToNat ys)) (digitsToNat ms)
        (digitsToNat ds) = none) :
    date (ys ++ s1 :: (ms ++ s2 :: ds)) =
      PResult.error (NomErr.custom (ys ++ s1 :: (ms ++ s2 :: ds))
        ParseErrorReason.dateOutOfRange) := by
  rw [date_run ys ms ds s1 s2 hy hyd hylen hyfit hm hmd hmfit hd hdd hdfit hs1 hs2, hv]

theorem date_out_of_range_amended_witness :
    date ((['2', '0', '2', '3'] : List Char) ++ '-' :: (['1', '3'] ++ '-' :: ['0', '1'])) =
      PResult.error (NomErr.custom (['2', '0', '2', '3'] ++ '-' :: (['1', '3'] ++ '-' :: ['0', '1']))
        ParseErrorReason.dateOutOfRange) :=
  date_out_of_range_amended ['2', '0', '2', '3'] ['1', '3'] ['0', '1'] '-' '-'
    (by decide) (by decide) (by decide) (by decide) (by decide) (by decide) (by decide)
    (by decide) (by decide) (by decide) (Or.inl rfl) (Or.inl rfl) (by decide)

/-- C10: the date parser chooses its two separators independently, so for
any mix of dash and slash separators the literal is accepted (when the
digit-group triple is calendar-valid) and yields the same date value as
the uniformly dash-separated literal. -/
theorem date_separator_independent (ys ms ds : List Char) (s1 s2 : Char)
    (hy : ys ≠ []) (hyd : ys.all is_ascii_digit = true) (hylen : 4 ≤ ys.length)
    (hm : ms ≠ []) (hmd : ms.all is_ascii_digit = true)
    (hd : ds ≠ []) (hdd : ds.all is_ascii_digit = true)
    (hs1 : s1 = '-' ∨ s1 = '/') (hs2 : s2 = '-' ∨ s2 = '/')
    (hv : NaiveDate.from_ymd_opt (Int.ofNat (digitsToNat ys)) (digitsToNat ms)
        (digitsToNat ds) = some ⟨Int.ofNat (digitsToNat ys), digitsToNat ms, digitsToNat ds⟩) :
    date (ys ++ s1 :: (ms ++ s2 :: ds)) =
        PResult.ok [] ⟨Int.ofNat (digitsToNat ys), digitsToNat ms, digitsToNat ds⟩
      ∧ date (ys ++ s1 :: (ms ++ s2 :: ds)) = date (ys ++ '-' :: (ms ++ '-' :: ds)) := by
  obtain ⟨hyfit, hmfit, hdfit, -⟩ := from_ymd_fits hv
  have h1 : date (ys ++ s1 :: (ms ++ s2 :: ds)) =
      PResult.ok [] ⟨Int.ofNat (digitsToNat ys), digitsToNat ms, digitsToNat ds⟩ := by
    rw [date_run ys ms ds s1 s2 hy hyd hylen hyfit hm hmd hmfit hd hdd hdfit hs1 hs2, hv]
  have h2 : date (ys ++ '-' :: (ms ++ '-' :: ds)) =
      PResult.ok [] ⟨Int.ofNat (digitsToNat ys), digitsToNat ms, digitsToNat ds⟩ := by
    rw [date_run ys ms ds '-' '-' hy hyd hylen hyfit hm hmd hmfit hd hdd hdfit
      (Or.inl rfl) (Or.inl rfl), hv]
  exact ⟨h1, h1.trans h2.symm⟩

theorem date_separator_independent_witness :
    date ((['2', '0', '2', '3'] : List Char) ++ '-' :: (['0', '1'] ++ '/' :: ['1', '5'])) =
        PResult.ok [] ⟨2023, 1, 15⟩
      ∧ date ((['2', '0', '2', '3'] : List Char) ++ '-' :: (['0', '1'] ++ '/' :: ['1', '5'])) =
        date (['2', '0', '2', '3'] ++ '-' :: (['0', '1'] ++ '-' :: ['1', '5'])) :=
  date_separator_independent ['2', '0', '2', '3'] ['0', '1'] ['1', '5'] '-' '/'
    (by decide) (by decide) (by decide) (by decide) (by decide) (by decide) (by decide)
    (Or.inl rfl) (Or.inr rfl) (by decide)

/-- C1: behaviour of the flag parser on the six punctuation flags, in
source order.  Five of them return the variant the claim names, but the
input `&` returns `TxnFlag.exclamation`, not `TxnFlag.ampersand`
(parser.rs line 75 maps `&` to `Flag::Exclamation`), so the `Ampersand`
variant of the data model is unreachable from this parser. -/
theorem flag_punctuation_behavior (rest : List Char) :
    flag ('*' :: rest) = some (rest, TxnFlag.asterisk)
    ∧ flag ('#' :: rest) = some (rest, TxnFlag.hash)
    ∧ flag ('!' :: rest) = some (rest, TxnFlag.exclamation)
    ∧ flag ('&' :: rest) = some (rest, TxnFlag.exclamation)
    ∧ flag ('?' :: rest) = some (rest, TxnFlag.question)
    ∧ flag ('%' :: rest) = some (rest, TxnFlag.percent)
    ∧ TxnFlag.exclamation ≠ TxnFlag.ampersand :=
  ⟨rfl, rfl, rfl, rfl, rfl, rfl, by decide⟩

/-- C5: the txn parser on an input beginning with the bare keyword `txn`
succeeds with the asterisk flag, the same value the flag parser returns
for an input beginning with `*`. -/
theorem txn_keyword_is_asterisk (rest : List Char) :
    txn ('t' :: 'x' :: 'n' :: rest) = some (rest, TxnFlag.asterisk)
    ∧ flag ('*' :: rest) = some (rest, TxnFlag.asterisk)
    ∧ txn ('t' :: 'x' :: 'n' :: rest) = flag ('*' :: rest) :=
  ⟨rfl, rfl, rfl⟩

theorem account_type_keyword (t : AccountType) (r : List Char) :
    account_type (accountTypeKeyword t ++ r) = some (r, t) := by
  cases t <;> rfl

theorem account_type_sound {i r : List Char} {t : AccountType}
    (h : account_type i = some (r, t)) : i = accountTypeKeyword t ++ r := by
  unfold account_type at h
  split at h
  · next h1 =>
    obtain ⟨rfl, rfl⟩ : _ ∧ AccountType.assets = t := by simpa using h
    exact sym_eq_some h1
  · split at h
    · next h1 =>
      obtain ⟨rfl, rfl⟩ : _ ∧ AccountType.liabilities = t := by simpa using h
      exact sym_eq_some h1
    · split at h
      · next h1 =>
        obtain ⟨rfl, rfl⟩ : _ ∧ AccountType.equity = t := by simpa using h
        exact sym_eq_some h1
      · split at h
        · next h1 =>
          obtain ⟨rfl, rfl⟩ : _ ∧ AccountType.income = t := by simpa using h
          exact sym_eq_some h1
        · split at h
          · next h1 =>
            obtain ⟨rfl, rfl⟩ : _ ∧ AccountType.expenses = t := by simpa using h
            exact sym_eq_some h1
          · simp at h

/-- C6: the account_type parser succeeds with remainder `r` and variant
`t` exactly when the input is the case-sensitive keyword of `t` followed
by `r`; in particular it fails on every input not beginning with one of
the five exact keywords (such as lowercase `assets`). -/
theorem account_type_exact_iff (i r : List Char) (t : AccountType) :
    account_type i = some (r, t) ↔ i = accountTypeKeyword t ++ r :=
  ⟨account_type_sound, fun h => by rw [h]; exact account_type_keyword t r⟩

theorem account_type_exact_iff_witness :
    account_type (("Equity:X").toList) = some ((":X").toList, AccountType.equity) :=
  (account_type_exact_iff (("Equity:X").toList) ((":X").toList) AccountType.equity).mpr
    (by decide)

theorem sub_account_exact (s rest : List Char) (hv : validSubStr s = true)
    (hrest : rest = [] ∨ ∃ c t, rest = c :: t ∧ is_valid_subsequent c = false) :
    sub_account (s ++ rest) = some (rest, ⟨s⟩) := by
  cases s with
  | nil => simp [validSubStr] at hv
  | cons c cs =>
    simp only [validSubStr, Bool.and_eq_true] at hv
    have e1 : (cs ++ rest).takeWhile is_valid_subsequent = cs :=
      takeWhile_append_stop _ cs rest hv.2 hrest
    have e2 : SubAccount.parse (c :: cs) = some ⟨c :: cs⟩ := by
      simp [SubAccount.parse, hv.1, hv.2]
    rw [List.cons_append]
    simp only [sub_account, hv.1, if_true, e1, e2, drop_length_append]

theorem colonsPre_stopper (subs : List (List Char)) :
    colonsPre subs = [] ∨
      ∃ c t, colonsPre subs = c :: t ∧ is_valid_subsequent c = false := by
  cases subs with
  | nil => exact Or.inl rfl
  | cons s rest => exact Or.inr ⟨':', s ++ colonsPre rest, rfl, by decide⟩

theorem colon_sub_colonsPre (s : List Char) (rest : List (List Char))
    (hs : validSubStr s = true) :
    colon_sub (colonsPre (s :: rest)) = some (colonsPre rest, ⟨s⟩) := by
  show colon_sub (':' :: (s ++ colonsPre rest)) = _
  unfold colon_sub
  rw [show sym [':'] (':' :: (s ++ colonsPre rest)) = some (s ++ colonsPre rest) from rfl]
  exact sub_account_exact s (colonsPre rest) hs (colonsPre_stopper rest)

theorem many0_colonsPre (subs : List (List Char)) :
    ∀ fuel : Nat, (∀ s ∈ subs, validSubStr s = true) →
      (colonsPre subs).length < fuel →
      many0_colon_sub_go fuel (colonsPre subs) = some ([], subs.map SubAccount.mk) := by
  induction subs with
  | nil =>
    intro fuel _ hfuel
    cases fuel with
    | zero => omega
    | succ f => rfl
  | cons s rest ih =>
    intro fuel hv hfuel
    cases fuel with
    | zero => omega
    | succ f =>
      have hs : validSubStr s = true := hv s (by simp)
      have hrest : ∀ x ∈ rest, validSubStr x = true :=
        fun x hx => hv x (List.mem_cons_of_mem _ hx)
      have hlen : (colonsPre (s :: rest)).length = 1 + s.length + (colonsPre rest).length := by
        simp [colonsPre]
        omega
      have hlt : (colonsPre rest).length < (colonsPre (s :: rest)).length := by omega
      have hfuel' : (colonsPre rest).length < f := by omega
      simp only [many0_colon_sub_go, colon_sub_colonsPre s rest hs, if_pos hlt,
        ih f hrest hfuel', List.map_cons]

/-- C7: for every account string of the form Type followed by one or more
colon-prefixed valid subaccount components, the account parser consumes
the whole string and returns an Account whose type is exactly the given
account type and whose subaccount sequence is exactly the given components
in order: the parsed Account decomposes back into the original
type-plus-components decomposition. -/
theorem account_roundtrip (t : AccountType) (subs : List (List Char))
    (hne : subs ≠ []) (hv : ∀ s ∈ subs, validSubStr s = true) :
    account (accountTypeKeyword t ++ colonsPre subs) =
      some ([], { account_type := t, sub_accounts := subs.map SubAccount.mk }) := by
  cases subs with
  | nil => exact absurd rfl hne
  | cons s rest =>
    have hs : validSubStr s = true := hv s (by simp)
    have hrest : ∀ x ∈ rest, validSubStr x = true :=
      fun x hx => hv x (List.mem_cons_of_mem _ hx)
    have e0 : account_type (accountTypeKeyword t ++ colonsPre (s :: rest)) =
        some (colonsPre (s :: rest), t) := account_type_keyword t _
    have e1 : sym [':'] (colonsPre (s :: rest)) = some (s ++ colonsPre rest) := rfl
    have e2 : sub_account (s ++ colonsPre rest) = some (colonsPre rest, ⟨s⟩) :=
      sub_account_exact s _ hs (colonsPre_stopper rest)
    have e3 : many0_colon_sub (colonsPre rest) = some ([], rest.map SubAccount.mk) :=
      many0_colonsPre rest _ hrest (Nat.lt_succ_self _)
    simp only [account, e0, e1, e2, e3, Account.new, List.map_cons]

theorem account_roundtrip_witness :
    account (accountTypeKeyword AccountType.assets ++
        colonsPre [['C', 'a', 's', 'h'], ['C', 'h', 'e', 'c', 'k', 'i', 'n', 'g']]) =
      some ([], Account.mk AccountType.assets
        [⟨['C', 'a', 's', 'h']⟩, ⟨['C', 'h', 'e', 'c', 'k', 'i', 'n', 'g']⟩]) :=
  account_roundtrip AccountType.assets [['C', 'a', 's', 'h'], ['C', 'h', 'e', 'c', 'k', 'i', 'n', 'g']]
    (by decide) (by decide)

/-- C8: every Account produced by a successful run of the account parser
has a non-empty subaccount sequence; and the parser fails on an
account-type keyword that is not followed by a colon and at least one
valid subaccount component (no colon, a colon at end of input, or a colon
followed by an invalid initial character). -/
theorem account_subaccounts_nonempty :
    (∀ i r a, account i = some (r, a) → a.sub_accounts ≠ [])
    ∧ (∀ (t : AccountType) (rest : List Char),
        (∀ c rest', rest = ':' :: c :: rest' → is_valid_initial c = false) →
        account (accountTypeKeyword t ++ rest) = none) := by
  constructor
  · intro i r a h
    unfold account at h
    split at h
    · simp at h
    · split at h
      · simp at h
      · split at h
        · simp at h
        · split at h
          · simp at h
          · split at h
            · simp at h
            · next a2 hnew =>
              simp only [Option.some.injEq, Prod.mk.injEq] at h
              obtain ⟨-, rfl⟩ := h
              simp only [Account.new, Option.some.injEq] at hnew
              subst hnew
              simp
  · intro t rest hrest
    cases rest with
    | nil =>
      have e0 : account_type (accountTypeKeyword t ++ []) = some ([], t) :=
        account_type_keyword t []
      simp only [account, e0, sym]
    | cons c r =>
      have e0 : account_type (accountTypeKeyword t ++ c :: r) = some (c :: r, t) :=
        account_type_keyword t (c :: r)
      by_cases hc : ':' = c
      · subst hc
        have e1 : sym [':'] (':' :: r) = some r := rfl
        cases r with
        | nil => simp only [account, e0, e1, sub_account]
        | cons c2 r2 =>
          have h2 : is_valid_initial c2 = false := hrest c2 r2 rfl
          simp only [account, e0, e1, sub_account, h2, Bool.false_eq_true, if_false]
      · have e1 : sym [':'] (c :: r) = none := by
          simp only [sym, if_neg hc]
        simp only [account, e0, e1]

theorem account_subaccounts_nonempty_witness :
    account (accountTypeKeyword AccountType.assets ++ ['X']) = none :=
  account_subaccounts_nonempty.2 AccountType.assets ['X']
    (fun c rest' h => absurd (List.cons.inj h).1 (by decide))

theorem string_content_loop_render (its : List StrItem) (tail : List Char)
    (hwf : its.all wfItem = true)
    (htail : tail = [] ∨ ∃ t, tail = '"' :: t) :
    string_content_loop false (render its ++ tail) = some (tail, decode its) := by
  induction its with
  | nil =>
    rcases htail with rfl | ⟨t, rfl⟩
    · rfl
    · rw [show render [] ++ '"' :: t = '"' :: t from rfl, string_content_loop.eq_def]
      simp [decode]
  | cons it its ih =>
    simp only [List.all_cons, Bool.and_eq_true] at hwf
    have ihh := ih hwf.2
    cases it with
    | raw c =>
      have hc : ¬(c = '\\') ∧ ¬(c = '"') := by
        have h := hwf.1
        simp only [wfItem, Bool.not_eq_true', Bool.or_eq_false_iff,
          decide_eq_false_iff_not] at h
        exact h
      show string_content_loop false (c :: (render its ++ tail)) =
        some (tail, c :: decode its)
      rw [string_content_loop.eq_def]
      simp [hc.1, hc.2, ihh]
    | esc e =>
      have he : (escape_char e).isSome = true := by
        simpa [wfItem] using hwf.1
      obtain ⟨tc, htc⟩ := Option.isSome_iff_exists.mp he
      show string_content_loop false ('\\' :: (e :: (render its ++ tail))) =
        some (tail, decodeItem (.esc e) :: decode its)
      rw [string_content_loop.eq_def]
      simp [htc, ihh, decodeItem]

theorem string_content_render (its : List StrItem) (tail : List Char)
    (hne : its ≠ []) (hwf : its.all wfItem = true)
    (htail : tail = [] ∨ ∃ t, tail = '"' :: t) :
    string_content (render its ++ tail) = some (tail, decode its) := by
  cases its with
  | nil => exact absurd rfl hne
  | cons it its =>
    simp only [List.all_cons, Bool.and_eq_true] at hwf
    have ihh := string_content_loop_render its tail hwf.2 htail
    cases it with
    | raw c =>
      have hc : ¬(c = '\\') ∧ ¬(c = '"') := by
        have h := hwf.1
        simp only [wfItem, Bool.not_eq_true', Bool.or_eq_false_iff,
          decide_eq_false_iff_not] at h
        exact h
      show string_content_loop true (c :: (render its ++ tail)) =
        some (tail, c :: decode its)
      rw [string_content_loop.eq_def]
      simp [hc.1, hc.2, ihh]
    | esc e =>
      have he : (escape_char e).isSome = true := by
        simpa [wfItem] using hwf.1
      obtain ⟨tc, htc⟩ := Option.isSome_iff_exists.mp he
      show string_content_loop true ('\\' :: (e :: (render its ++ tail))) =
        some (tail, decodeItem (.esc e) :: decode its)
      rw [string_content_loop.eq_def]
      simp [htc, ihh, decodeItem]

theorem sym_quote_cons (x : List Char) : sym ['"'] ('"' :: x) = some x := rfl

/-- C9 counterexample: the claim as stated is false at the empty string
literal.  The two-character input of an opening and a closing quote is a
double-quote-delimited (empty) string, but nom `escaped_transform` fails
with an `EscapedTransform` error when its inner parser matches nothing at
the start of non-empty input, so the string parser rejects it instead of
succeeding with empty content. -/
theorem string_empty_literal_counterexample :
    string ('"' :: (render [] ++ '"' :: [])) = none := by decide

/-- C9 amended: the string parser succeeds on a double-quote-delimited
string with non-empty content, returning the content with every escape
pair replaced by its transformed character (backslash, double quote,
newline, tab); it fails on the empty string literal, because nom
`escaped_transform` rejects empty content; it fails on an unterminated
string (an opening quote whose content runs to end of input with no
closing quote); and it only ever succeeds on inputs beginning with a
double quote. -/
theorem string_escapes_amended (its : List StrItem) (rest : List Char)
    (hne : its ≠ []) (hwf : its.all wfItem = true) :
    string ('"' :: (render its ++ '"' :: rest)) = some (rest, decode its)
    ∧ string ['"', '"'] = none
    ∧ string ('"' :: render its) = none
    ∧ (∀ i r v, string i = some (r, v) → ∃ i2, i = '"' :: i2) := by
  refine ⟨?_, by decide, ?_, ?_⟩
  · have e1 : string_content (render its ++ '"' :: rest) =
        some ('"' :: rest, decode its) :=
      string_content_render its _ hne hwf (Or.inr ⟨rest, rfl⟩)
    simp only [string, sym_quote_cons, e1]
  · have e2 : string_content (render its) = some ([], decode its) := by
      have h := string_content_render its [] hne hwf (Or.inl rfl)
      simpa using h
    simp [string, sym_quote_cons, e2, sym]
  · intro i r v h
    cases i with
    | nil => simp [string, sym] at h
    | cons c cs =>
      by_cases hc : '"' = c
      · exact ⟨cs, by rw [hc]⟩
      · simp [string, sym, if_neg hc] at h

theorem string_escapes_witness :
    string ('"' :: (render [StrItem.raw 'a', StrItem.esc 'n', StrItem.raw 'b'] ++ '"' :: [])) =
      some ([], ['a', '\n', 'b']) :=
  (string_escapes_amended [StrItem.raw 'a', StrItem.esc 'n', StrItem.raw 'b'] []
    (by decide) (by decide)).1

theorem flag_punctuation_behavior_witness :
    flag ['&'] = some ([], TxnFlag.exclamation) ∧ TxnFlag.exclamation ≠ TxnFlag.ampersand :=
  ⟨(flag_punctuation_behavior []).2.2.2.1, (flag_punctuation_behavior []).2.2.2.2.2.2⟩

theorem txn_keyword_is_asterisk_witness :
    txn ('t' :: 'x' :: 'n' :: [' ']) = some ([' '], TxnFlag.asterisk) :=
  (txn_keyword_is_asterisk [' ']).1
